import Mathlib

/-!
# Verification of the jerusalem_rag ingestion-and-retrieval core

Shallow embedding of the core pipeline of the `jerusalem_rag` repository:

* `rag/injest_v2.py` — `MultilingualIngestor.chunk_text`, `load_file`
  (chunk-id assignment, chunk-record construction), `translate_chunks`;
* `rag/translation.py` — `TranslationCache.get/put`, `Translator.translate`,
  `Translator.translate_chunks`;
* `rag/retrieve_v2.py` — `Retriever.retrieve`.

Strings are modelled as `List Char` where positional slicing matters and as
`String` elsewhere.  External collaborators (the Gemini API, the embedding
model, the FAISS index, `hashlib.sha256`) are passed in as explicit function
arguments, mirroring the spec's treatment of them as black boxes.
-/

namespace JerusalemRag

/-! ## Chunker (`MultilingualIngestor.chunk_text`, injest_v2.py lines 92-101)

```python
def chunk_text(self, text: str) -> list[str]:
    chunks = []
    i = 0
    while i < len(text):
        part = text[i : i + self.chunk_size].strip()
        if part:
            chunks.append(part)
        i += self.chunk_size - self.overlap
    return chunks
```

The loop is embedded with explicit fuel: `none` means the fuel ran out while
the `while` condition was still true, so divergence of the Python loop is
`∀ fuel, … = none`.  The loop variable `i` stays a natural number, which is
faithful for `overlap ≤ chunk_size` (the only regime the claims touch at
concrete inputs); Python's `chunk_size - overlap` is likewise never negative
there.  Each produced chunk is paired with the value of `i` (the window start
offset) at the moment it was appended.
-/

/-- The six ASCII characters stripped by Python's `str.strip()`
(the documents in this corpus are handled as ASCII-compatible text). -/
def isPySpace (c : Char) : Bool :=
  c = ' ' || c = '\t' || c = '\n' || c = '\r' || c = '\x0b' || c = '\x0c'

/-- Python `str.strip()`: drop leading and trailing whitespace. -/
def pyStrip (s : List Char) : List Char :=
  ((s.dropWhile isPySpace).reverse.dropWhile isPySpace).reverse

/-- The `while` loop of `chunk_text`, instrumented with the window start
offset of each produced chunk and with fuel.  `text[i : i + chunk_size]`
for `0 ≤ i` is `(text.drop i).take cs`; `i += chunk_size - overlap` is
`i + (cs - ov)`. -/
def chunkTextLoop (cs ov : Nat) (text : List Char) : Nat → Nat → Option (List (Nat × List Char))
  | 0, i => if i < text.length then none else some []
  | fuel + 1, i =>
    if i < text.length then
      let part := pyStrip ((text.drop i).take cs)
      match chunkTextLoop cs ov text fuel (i + (cs - ov)) with
      | none => none
      | some rest => some (if part = [] then rest else (i, part) :: rest)
    else some []

/-- Embeds `chunk_text`, keeping the window start offsets.  The fuel `text.length`
is sufficient whenever `ov < cs` (proved below); when the loop diverges the
result is `none` for every fuel, in particular for this one. -/
def chunkTextWithOffsets (cs ov : Nat) (text : List Char) : Option (List (Nat × List Char)) :=
  chunkTextLoop cs ov text text.length 0

/-- Embeds `MultilingualIngestor.chunk_text`: the produced chunks, in order. -/
def chunk_text (cs ov : Nat) (text : List Char) : Option (List (List Char)) :=
  (chunkTextWithOffsets cs ov text).map (List.map Prod.snd)

/-- With `overlap = chunk_size` the step `i += chunk_size - overlap` is zero,
so on non-empty text the `while` condition never becomes false: the loop
never terminates (and, the codebase defining no `ConfigError`, certainly does
not raise one). -/
def chunkTextDiverges (cs ov : Nat) (text : List Char) : Prop :=
  ∀ fuel, chunkTextLoop cs ov text fuel 0 = none

theorem chunkTextLoop_step_zero (cs : Nat) (text : List Char) (h : text ≠ []) :
    ∀ fuel, chunkTextLoop cs cs text fuel 0 = none := by
  intro fuel
  induction fuel with
  | zero =>
    simp [chunkTextLoop, List.length_pos.mpr h]
  | succ n ih =>
    have hlen : 0 < text.length := List.length_pos.mpr h
    simp only [chunkTextLoop, if_pos hlen, Nat.sub_self, Nat.add_zero, ih]

theorem chunkTextLoop_isSome (cs ov : Nat) (text : List Char) (hstep : ov < cs) :
    ∀ fuel i, text.length - i ≤ fuel → (chunkTextLoop cs ov text fuel i).isSome := by
  intro fuel
  induction fuel with
  | zero =>
    intro i hi
    have : ¬ i < text.length := by omega
    simp [chunkTextLoop, this]
  | succ n ih =>
    intro i hi
    by_cases hlt : i < text.length
    · have hrec : (chunkTextLoop cs ov text n (i + (cs - ov))).isSome := by
        apply ih
        omega
      simp only [chunkTextLoop, if_pos hlt]
      match hm : chunkTextLoop cs ov text n (i + (cs - ov)) with
      | none => rw [hm] at hrec; simp at hrec
      | some rest => simp
    · simp [chunkTextLoop, hlt]

/-- Python `str.strip()` never lengthens a string. -/
theorem pyStrip_length_le (s : List Char) : (pyStrip s).length ≤ s.length := by
  have h1 : ((s.dropWhile isPySpace).length : Nat) ≤ s.length :=
    (List.dropWhile_sublist _).length_le
  have h2 : (((s.dropWhile isPySpace).reverse.dropWhile isPySpace).length : Nat) ≤
      (s.dropWhile isPySpace).reverse.length :=
    (List.dropWhile_sublist _).length_le
  simp only [pyStrip, List.length_reverse] at *
  omega

/-- Per-chunk facts about the loop output: every produced chunk sits at an
offset `start + k * (cs - ov)` strictly before the end of the text, is
non-empty and has length at most `cs`; consecutive produced chunks are
separated by a positive number of loop steps. -/
theorem chunkTextLoop_spec (cs ov : Nat) (text : List Char) :
    ∀ fuel i l, chunkTextLoop cs ov text fuel i = some l →
      (∀ p ∈ l, (∃ k, p.1 = i + k * (cs - ov)) ∧ p.1 < text.length ∧
        p.2 ≠ [] ∧ p.2.length ≤ cs) ∧
      l.Chain' (fun a b => ∃ k, 0 < k ∧ b.1 = a.1 + k * (cs - ov)) := by
  intro fuel
  induction fuel with
  | zero =>
    intro i l hl
    by_cases hlt : i < text.length <;> simp [chunkTextLoop, hlt] at hl
    subst hl
    simp
  | succ n ih =>
    intro i l hl
    by_cases hlt : i < text.length
    · simp only [chunkTextLoop, if_pos hlt] at hl
      match hm : chunkTextLoop cs ov text n (i + (cs - ov)) with
      | none => rw [hm] at hl; simp at hl
      | some rest =>
        rw [hm] at hl
        simp only [Option.some.injEq] at hl
        obtain ⟨hmem, hchain⟩ := ih (i + (cs - ov)) rest hm
        have hmem' : ∀ p ∈ rest, (∃ k, p.1 = i + k * (cs - ov)) ∧ p.1 < text.length ∧
            p.2 ≠ [] ∧ p.2.length ≤ cs := by
          intro p hp
          obtain ⟨⟨k, hk⟩, hb, hne, hlen⟩ := hmem p hp
          refine ⟨⟨k + 1, ?_⟩, hb, hne, hlen⟩
          rw [hk]; ring
        by_cases hpart : pyStrip ((text.drop i).take cs) = []
        · rw [if_pos hpart] at hl
          subst hl
          exact ⟨hmem', hchain⟩
        · rw [if_neg hpart] at hl
          subst hl
          refine ⟨?_, ?_⟩
          · intro p hp
            rcases List.mem_cons.mp hp with hp | hp
            · subst hp
              refine ⟨⟨0, by omega⟩, hlt, hpart, ?_⟩
              have hs : (pyStrip ((text.drop i).take cs)).length ≤
                  ((text.drop i).take cs).length := pyStrip_length_le _
              have ht : ((text.drop i).take cs).length ≤ cs := by simp
              exact le_trans hs ht
            · exact hmem' p hp
          · rw [List.chain'_cons']
            refine ⟨?_, hchain⟩
            intro y hy
            have hyrest : y ∈ rest := List.mem_of_mem_head? hy
            obtain ⟨⟨k, hk⟩, _, _, _⟩ := hmem y hyrest
            refine ⟨k + 1, by omega, ?_⟩
            rw [hk]; ring
    · simp [chunkTextLoop, hlt] at hl
      subst hl
      simp

/-- A list none of whose characters is whitespace is untouched by `dropWhile`. -/
theorem dropWhile_eq_self_of_no_space (s : List Char)
    (h : ∀ c ∈ s, isPySpace c = false) : s.dropWhile isPySpace = s := by
  cases s with
  | nil => rfl
  | cons a l =>
    have ha : isPySpace a = false := h a (by simp)
    simp [List.dropWhile_cons, ha]

/-- Python `str.strip()` is the identity on whitespace-free strings. -/
theorem pyStrip_eq_self_of_no_space (s : List Char)
    (h : ∀ c ∈ s, isPySpace c = false) : pyStrip s = s := by
  unfold pyStrip
  rw [dropWhile_eq_self_of_no_space s h]
  rw [dropWhile_eq_self_of_no_space s.reverse (by intro c hc; exact h c (by simpa using hc))]
  simp

/-- Past the end of the text the loop exits immediately with `[]`. -/
theorem chunkTextLoop_of_le (cs ov : Nat) (text : List Char) (i : Nat)
    (h : text.length ≤ i) : ∀ fuel, chunkTextLoop cs ov text fuel i = some [] := by
  intro fuel
  have : ¬ i < text.length := by omega
  cases fuel <;> simp [chunkTextLoop, this]

/-- One non-empty-window loop step, for rewriting at concrete offsets. -/
theorem chunkTextLoop_succ_cons (cs ov : Nat) (text : List Char) (fuel i : Nat)
    (h : i < text.length) (rest : List (Nat × List Char))
    (hrec : chunkTextLoop cs ov text fuel (i + (cs - ov)) = some rest)
    (hpart : pyStrip ((text.drop i).take cs) ≠ []) :
    chunkTextLoop cs ov text (fuel + 1) i =
      some ((i, pyStrip ((text.drop i).take cs)) :: rest) := by
  simp only [chunkTextLoop, if_pos h, hrec]
  simp [hpart]

/-- The spec's concrete chunking scenario, for any whitespace-free text of
length 2500: `chunk_size = 2000`, `overlap = 300` produce exactly the two
windows at offsets 0 and 1700. -/
theorem chunkTextWithOffsets_scenario (text : List Char)
    (hlen : text.length = 2500) (hws : ∀ c ∈ text, isPySpace c = false) :
    chunkTextWithOffsets 2000 300 text =
      some [(0, text.take 2000), (1700, text.drop 1700)] := by
  have hpart1 : pyStrip ((text.drop 0).take 2000) = text.take 2000 := by
    rw [List.drop_zero]
    exact pyStrip_eq_self_of_no_space _ (fun c hc => hws c (List.take_subset _ _ hc))
  have hpart1_ne : text.take 2000 ≠ [] := by
    intro h
    have := congrArg List.length h
    simp [hlen] at this
  have htake2 : (text.drop 1700).take 2000 = text.drop 1700 :=
    List.take_of_length_le (by simp [hlen])
  have hpart2 : pyStrip ((text.drop 1700).take 2000) = text.drop 1700 := by
    rw [htake2]
    exact pyStrip_eq_self_of_no_space _ (fun c hc => hws c (List.drop_subset _ _ hc))
  have hpart2_ne : text.drop 1700 ≠ [] := by
    intro h
    have := congrArg List.length h
    simp [hlen] at this
  have h3400 : chunkTextLoop 2000 300 text 2498 3400 = some [] :=
    chunkTextLoop_of_le 2000 300 text 3400 (by omega) 2498
  have h1700 : chunkTextLoop 2000 300 text (2498 + 1) 1700 =
      some [(1700, text.drop 1700)] := by
    have := chunkTextLoop_succ_cons 2000 300 text 2498 1700 (by omega) [] h3400
      (by rw [hpart2]; exact hpart2_ne)
    rw [this, hpart2]
  have h0 : chunkTextLoop 2000 300 text (2499 + 1) 0 =
      some [(0, text.take 2000), (1700, text.drop 1700)] := by
    have := chunkTextLoop_succ_cons 2000 300 text 2499 0 (by omega)
      [(1700, text.drop 1700)] h1700 (by rw [hpart1]; exact hpart1_ne)
    rw [this, hpart1]
  unfold chunkTextWithOffsets
  rw [hlen]
  exact h0

/-! ### Claims C1-C3

The repository defines no `ConfigError` and `MultilingualIngestor.__init__`
performs no validation of `chunk_size`/`overlap`; with `overlap = chunk_size`
the loop step is zero, so `chunk_text` on non-empty text never terminates
instead of failing at the call site. -/

/-- C1 (amended): the Chunker performs no parameter validation and raises no
`ConfigError`; with `overlap = chunk_size` and non-empty text, `chunk_text`
fails to terminate, while for valid parameters (`overlap < chunk_size`) it
never fails and always terminates. -/
theorem c1_chunker_failure_modes :
    (∀ cs : Nat, ∀ text : List Char, text ≠ [] → chunkTextDiverges cs cs text) ∧
    (∀ cs ov : Nat, ∀ text : List Char, ov < cs → ∃ l, chunk_text cs ov text = some l) := by
  constructor
  · intro cs text h fuel
    exact chunkTextLoop_step_zero cs text h fuel
  · intro cs ov text hov
    have h := chunkTextLoop_isSome cs ov text hov text.length 0 (by omega)
    match hm : chunkTextLoop cs ov text text.length 0 with
    | none => rw [hm] at h; simp at h
    | some l =>
      refine ⟨l.map Prod.snd, ?_⟩
      simp [chunk_text, chunkTextWithOffsets, hm]

/-- C1 counterexample: at `chunk_size = 3`, `overlap = 3` (an invalid
parameter pair) and text `"a"`, chunking does not fail with a `ConfigError`
at the call site — it never returns at all: the loop is still running after
every finite number of iterations. -/
theorem c1_counterexample :
    chunkTextDiverges 3 3 ['a'] ∧ chunk_text 3 3 ['a'] = none := by
  have hdiv : chunkTextDiverges 3 3 ['a'] := fun fuel =>
    chunkTextLoop_step_zero 3 ['a'] (by simp) fuel
  refine ⟨hdiv, ?_⟩
  simp [chunk_text, chunkTextWithOffsets, hdiv 1]

/-- C1 witness: the amended theorem applied at `chunk_size = 2` with
`overlap = 2` (divergence) and `overlap = 1` (termination) on text `"b"`. -/
theorem c1_witness :
    chunkTextDiverges 2 2 ['b'] ∧ ∃ l, chunk_text 2 1 ['b'] = some l :=
  ⟨c1_chunker_failure_modes.1 2 ['b'] (by simp),
   c1_chunker_failure_modes.2 2 1 ['b'] (by omega)⟩

/-- C2: for valid parameters (`chunk_size > 0`, `0 ≤ overlap < chunk_size`)
`chunk_text` terminates on every text — `text.length` units of fuel already
suffice, because the window start grows by `chunk_size - overlap ≥ 1` per
iteration — and every produced window starts strictly before the end of the
text (the loop stops once the window start reaches the end). -/
theorem c2_chunk_text_terminates (cs ov : Nat) (text : List Char)
    (_hcs : 0 < cs) (hov : ov < cs) :
    ∃ l, chunkTextWithOffsets cs ov text = some l ∧ ∀ p ∈ l, p.1 < text.length := by
  have h := chunkTextLoop_isSome cs ov text hov text.length 0 (by omega)
  match hm : chunkTextLoop cs ov text text.length 0 with
  | none => rw [hm] at h; simp at h
  | some l =>
    refine ⟨l, hm, ?_⟩
    intro p hp
    exact ((chunkTextLoop_spec cs ov text text.length 0 l hm).1 p hp).2.1

/-- C2 witness: termination at `chunk_size = 3`, `overlap = 1` on `"hello"`. -/
theorem c2_witness :
    ∃ l, chunkTextWithOffsets 3 1 ['h', 'e', 'l', 'l', 'o'] = some l ∧
      ∀ p ∈ l, p.1 < ['h', 'e', 'l', 'l', 'o'].length :=
  c2_chunk_text_terminates 3 1 ['h', 'e', 'l', 'l', 'o'] (by omega) (by omega)

/-- C3 counterexample: `chunk_size = 2`, `overlap = 0` (valid parameters) on
the non-empty text `"ab  cd"`.  The two produced chunks are taken from the
windows at offsets 0 and 4 — the whitespace-only window at offset 2 is
dropped — so the start offsets of successive produced chunks differ by 4,
not by `chunk_size - overlap = 2` (and this is not boundary truncation). -/
theorem c3_counterexample :
    chunkTextWithOffsets 2 0 ['a', 'b', ' ', ' ', 'c', 'd'] =
      some [(0, ['a', 'b']), (4, ['c', 'd'])] ∧ ¬ (4 - 0 = 2 - 0) := by
  constructor
  · decide
  · omega

/-- C3 (amended): for valid parameters every produced chunk is non-empty and
at most `chunk_size` long; every produced chunk's window offset is a multiple
of `chunk_size - overlap`, and offsets of successive produced chunks are
strictly increasing, differing by a positive multiple of
`chunk_size - overlap` (exactly `chunk_size - overlap` except when
intermediate whitespace-only windows are dropped); the concrete scenario
holds for whitespace-free text: `chunk_size = 2000`, `overlap = 300` and a
whitespace-free text of length 2500 yield exactly 2 chunks, the second taken
from offset 1700. -/
theorem c3_chunk_window_shape :
    (∀ cs ov : Nat, ∀ text : List Char, ∀ l,
      chunkTextWithOffsets cs ov text = some l →
        (∀ p ∈ l, p.2 ≠ [] ∧ p.2.length ≤ cs) ∧
        (∀ p ∈ l, ∃ k, p.1 = k * (cs - ov)) ∧
        (ov < cs → l.Chain' (fun a b => a.1 < b.1 ∧ (cs - ov) ∣ (b.1 - a.1)))) ∧
    (∀ text : List Char, text.length = 2500 → (∀ c ∈ text, isPySpace c = false) →
      chunkTextWithOffsets 2000 300 text =
        some [(0, text.take 2000), (1700, text.drop 1700)]) := by
  constructor
  · intro cs ov text l hl
    obtain ⟨hmem, hchain⟩ := chunkTextLoop_spec cs ov text text.length 0 l hl
    refine ⟨?_, ?_, ?_⟩
    · intro p hp
      obtain ⟨_, _, hne, hlen⟩ := hmem p hp
      exact ⟨hne, hlen⟩
    · intro p hp
      obtain ⟨⟨k, hk⟩, _, _, _⟩ := hmem p hp
      exact ⟨k, by omega⟩
    · intro hov
      refine hchain.imp ?_
      intro a b ⟨k, hk0, hk⟩
      have hstep : 0 < cs - ov := by omega
      constructor
      · have : 0 < k * (cs - ov) := Nat.mul_pos hk0 hstep
        omega
      · exact ⟨k, by rw [hk, Nat.add_sub_cancel_left, Nat.mul_comm]⟩
  · exact chunkTextWithOffsets_scenario

/-- C3 witness: the amended theorem applied to the concrete output on
`"ab  cd"` (general part) and to the text of 2500 letters `a` (scenario). -/
theorem c3_witness :
    ((∀ p ∈ [(0, ['a', 'b']), (4, ['c', 'd'])], (p.2 : List Char) ≠ [] ∧ p.2.length ≤ 2) ∧
      (∀ p ∈ [(0, ['a', 'b']), (4, ['c', 'd'])], ∃ k, (p.1 : Nat) = k * (2 - 0)) ∧
      ((0 : Nat) < 2 → List.Chain' (fun a b => a.1 < b.1 ∧ (2 - 0) ∣ (b.1 - a.1))
        [(0, ['a', 'b']), (4, ['c', 'd'])])) ∧
    chunkTextWithOffsets 2000 300 (List.replicate 2500 'a') =
      some [(0, (List.replicate 2500 'a').take 2000),
            (1700, (List.replicate 2500 'a').drop 1700)] :=
  ⟨c3_chunk_window_shape.1 2 0 ['a', 'b', ' ', ' ', 'c', 'd']
      [(0, ['a', 'b']), (4, ['c', 'd'])] (by decide),
   c3_chunk_window_shape.2 (List.replicate 2500 'a') (by rw [List.length_replicate])
      (by intro c hc; rw [List.eq_of_mem_replicate hc]; decide)⟩

/-! ## Translation cache and rate-limited translator (`rag/translation.py`)

`TranslationCache` keeps one `<key>.txt` file per translation plus an
`index.json` mapping keys to bookkeeping metadata; both are modelled as
association lists (leftmost binding wins, as a later write wins on disk).
The cache key is `f"{source_lang}_{hash(text)}"` where the hash
(`hashlib.sha256(text.encode()).hexdigest()[:16]`) is an external primitive,
passed in as an explicit function `hashText`.  The Gemini API is modelled as
a function `api : Nat → ApiOutcome` giving the outcome of each attempt
(`response.text or ""` on success; exceptions split, as in the code's
`except` branch, into quota/overload signals — `"503"`/`"429"`/`"overloaded"`
in the message — and everything else).  Wall-clock effects (`_rate_limit`,
`time.sleep`) are recorded as the list of backoff waits. -/

/-- One `index.json` entry (`TranslationCache.put`, translation.py 60-64). -/
structure CacheMeta where
  source_lang : String
  original_len : Nat
  translated_len : Nat
deriving DecidableEq

/-- The cache directory: translation files and the `index.json` mapping. -/
structure TranslationCache where
  files : List (String × String)
  index : List (String × CacheMeta)
deriving DecidableEq

/-- Overwriting update of an association list (a file write / dict update). -/
def assocSet {β : Type} (k : String) (v : β) (l : List (String × β)) : List (String × β) :=
  (k, v) :: l.filter (fun p => p.1 != k)

/-- The cache key `f"{source_lang}_{self._hash_text(text)}"`. -/
def cacheKey (hashText : String → String) (text source_lang : String) : String :=
  source_lang ++ "_" ++ hashText text

/-- Embeds `TranslationCache.get`: a hit needs the key in the index AND the cache
file to exist; otherwise `None`. -/
def TranslationCache.get (st : TranslationCache) (hashText : String → String)
    (text source_lang : String) : Option String :=
  let key := cacheKey hashText text source_lang
  match st.index.lookup key with
  | some _ => st.files.lookup key
  | none => none

/-- Embeds `TranslationCache.put`: write the translation file, record the metadata
in the index, save the index. -/
def TranslationCache.put (st : TranslationCache) (hashText : String → String)
    (text source_lang translation : String) : TranslationCache :=
  let key := cacheKey hashText text source_lang
  { files := assocSet key translation st.files,
    index := assocSet key ⟨source_lang, text.length, translation.length⟩ st.index }

/-- The `if cached:` test of `Translator.translate`: a cached empty string is
falsy in Python and does NOT short-circuit. -/
def truthyCached (st : TranslationCache) (hashText : String → String)
    (text source_lang : String) : Option String :=
  match st.get hashText text source_lang with
  | some c => if c = "" then none else some c
  | none => none

/-- Outcome of one `client.models.generate_content` call. -/
inductive ApiOutcome where
  | success (text : String)
  | retryable
  | fatal
deriving DecidableEq

/-- What one `Translator.translate` call produced: the returned string, the
cache state afterwards, the number of API calls issued and the backoff waits
slept. -/
structure TranslateResult where
  output : String
  cache : TranslationCache
  apiCalls : Nat
  waits : List Nat
deriving DecidableEq

/-- The `for attempt in range(max_retries)` loop of `Translator.translate`
(translation.py 167-203), `max_retries = 5`.  On success the result is cached
when `use_cache and translation` and returned; on a retryable error the loop
sleeps `(2 ** attempt) * 30 + 10` seconds and retries; on any other error it
returns `""`; after the cap it returns `""`. -/
def translateAttempts (hashText : String → String) (api : Nat → ApiOutcome)
    (st : TranslationCache) (text source_lang : String) (use_cache : Bool) :
    Nat → Nat → Nat → List Nat → TranslateResult
  | _attempt, 0, calls, waits => ⟨"", st, calls, waits⟩
  | attempt, remaining + 1, calls, waits =>
    match api attempt with
    | .success t =>
      if use_cache ∧ t ≠ "" then
        ⟨t, st.put hashText text source_lang t, calls + 1, waits⟩
      else
        ⟨t, st, calls + 1, waits⟩
    | .retryable =>
      translateAttempts hashText api st text source_lang use_cache
        (attempt + 1) remaining (calls + 1) (waits ++ [2 ^ attempt * 30 + 10])
    | .fatal => ⟨"", st, calls + 1, waits⟩

/-- Embeds `Translator.translate` (translation.py 124-203): check the cache first (a
truthy hit short-circuits), otherwise run the retry loop. -/
def Translator.translate (hashText : String → String) (api : Nat → ApiOutcome)
    (st : TranslationCache) (text source_lang : String) (use_cache : Bool) :
    TranslateResult :=
  if use_cache then
    match truthyCached st hashText text source_lang with
    | some cached => ⟨cached, st, 0, []⟩
    | none => translateAttempts hashText api st text source_lang use_cache 0 5 0 []
  else
    translateAttempts hashText api st text source_lang use_cache 0 5 0 []

theorem lookup_assocSet {β : Type} (k : String) (v : β) (l : List (String × β)) :
    (assocSet k v l).lookup k = some v := by
  simp [assocSet, List.lookup]

/-- Cache `get` after `put` for the same `(text, source_lang)` pair returns exactly
the translation just written. -/
theorem TranslationCache.get_put (st : TranslationCache) (hashText : String → String)
    (text source_lang translation : String) :
    (st.put hashText text source_lang translation).get hashText text source_lang =
      some translation := by
  simp [TranslationCache.get, TranslationCache.put, lookup_assocSet]

theorem truthyCached_put (st : TranslationCache) (hashText : String → String)
    (text source_lang translation : String) (h : translation ≠ "") :
    truthyCached (st.put hashText text source_lang translation) hashText text source_lang =
      some translation := by
  simp [truthyCached, TranslationCache.get_put, h]

theorem translateAttempts_success (hashText : String → String) (api : Nat → ApiOutcome)
    (st : TranslationCache) (text source_lang : String) (use_cache : Bool)
    (attempt n calls : Nat) (waits : List Nat) (t : String)
    (ha : api attempt = .success t) :
    translateAttempts hashText api st text source_lang use_cache
        attempt (n + 1) calls waits =
      if use_cache ∧ t ≠ "" then
        ⟨t, st.put hashText text source_lang t, calls + 1, waits⟩
      else ⟨t, st, calls + 1, waits⟩ := by
  simp only [translateAttempts, ha]

theorem translateAttempts_retryable (hashText : String → String) (api : Nat → ApiOutcome)
    (st : TranslationCache) (text source_lang : String) (use_cache : Bool)
    (attempt n calls : Nat) (waits : List Nat)
    (ha : api attempt = .retryable) :
    translateAttempts hashText api st text source_lang use_cache
        attempt (n + 1) calls waits =
      translateAttempts hashText api st text source_lang use_cache
        (attempt + 1) n (calls + 1) (waits ++ [2 ^ attempt * 30 + 10]) := by
  simp only [translateAttempts, ha]

theorem translateAttempts_fatal (hashText : String → String) (api : Nat → ApiOutcome)
    (st : TranslationCache) (text source_lang : String) (use_cache : Bool)
    (attempt n calls : Nat) (waits : List Nat)
    (ha : api attempt = .fatal) :
    translateAttempts hashText api st text source_lang use_cache
        attempt (n + 1) calls waits = ⟨"", st, calls + 1, waits⟩ := by
  simp only [translateAttempts, ha]

/-- A non-empty output of the retry loop always came from a `success` outcome
of some attempt inside the window. -/
theorem translateAttempts_output (hashText : String → String) (api : Nat → ApiOutcome)
    (st : TranslationCache) (text source_lang : String) (use_cache : Bool) :
    ∀ remaining attempt calls waits,
      (translateAttempts hashText api st text source_lang use_cache
          attempt remaining calls waits).output = "" ∨
      ∃ a, attempt ≤ a ∧ a < attempt + remaining ∧
        api a = .success ((translateAttempts hashText api st text source_lang use_cache
          attempt remaining calls waits).output) := by
  intro remaining
  induction remaining with
  | zero => intro attempt calls waits; left; rfl
  | succ n ih =>
    intro attempt calls waits
    rcases ha : api attempt with t | _ | _
    · rw [translateAttempts_success hashText api st text source_lang use_cache
        attempt n calls waits t ha]
      by_cases ht : (use_cache : Prop) ∧ t ≠ ""
      · rw [if_pos ht]
        exact Or.inr ⟨attempt, le_refl _, by omega, ha⟩
      · rw [if_neg ht]
        exact Or.inr ⟨attempt, le_refl _, by omega, ha⟩
    · rw [translateAttempts_retryable hashText api st text source_lang use_cache
        attempt n calls waits ha]
      rcases ih (attempt + 1) (calls + 1) (waits ++ [2 ^ attempt * 30 + 10]) with h | ⟨a, h1, h2, h3⟩
      · exact Or.inl h
      · exact Or.inr ⟨a, by omega, by omega, h3⟩
    · rw [translateAttempts_fatal hashText api st text source_lang use_cache
        attempt n calls waits ha]
      left; rfl

/-- When the retry loop (with caching on) returns a non-empty translation,
the final cache state is exactly the starting state with that translation
written for this `(text, source_lang)` pair. -/
theorem translateAttempts_cache (hashText : String → String) (api : Nat → ApiOutcome)
    (st : TranslationCache) (text source_lang : String) :
    ∀ remaining attempt calls waits,
      (translateAttempts hashText api st text source_lang true
          attempt remaining calls waits).output ≠ "" →
      (translateAttempts hashText api st text source_lang true
          attempt remaining calls waits).cache =
        st.put hashText text source_lang
          ((translateAttempts hashText api st text source_lang true
            attempt remaining calls waits).output) := by
  intro remaining
  induction remaining with
  | zero => intro attempt calls waits h; exact absurd rfl h
  | succ n ih =>
    intro attempt calls waits h
    rcases ha : api attempt with t | _ | _
    · rw [translateAttempts_success hashText api st text source_lang true
        attempt n calls waits t ha] at h ⊢
      by_cases ht : (true : Bool) ∧ t ≠ ""
      · rw [if_pos ht] at h ⊢
      · rw [if_neg ht] at h ⊢
        simp only [ne_eq, true_and] at ht
        push_neg at ht
        exact absurd ht h
    · rw [translateAttempts_retryable hashText api st text source_lang true
        attempt n calls waits ha] at h ⊢
      exact ih (attempt + 1) (calls + 1) (waits ++ [2 ^ attempt * 30 + 10]) h
    · rw [translateAttempts_fatal hashText api st text source_lang true
        attempt n calls waits ha] at h
      exact absurd rfl h

theorem truthyCached_ne_empty (st : TranslationCache) (hashText : String → String)
    (text source_lang c : String)
    (h : truthyCached st hashText text source_lang = some c) : c ≠ "" := by
  unfold truthyCached at h
  split at h
  · split at h
    · simp at h
    · rename_i hd
      rw [Option.some.injEq] at h
      subst h
      exact hd
  · simp at h

theorem translate_cacheHit (hashText : String → String) (api : Nat → ApiOutcome)
    (st : TranslationCache) (text source_lang c : String)
    (hc : truthyCached st hashText text source_lang = some c) :
    Translator.translate hashText api st text source_lang true = ⟨c, st, 0, []⟩ := by
  simp [Translator.translate, hc]

theorem translate_cacheMiss (hashText : String → String) (api : Nat → ApiOutcome)
    (st : TranslationCache) (text source_lang : String)
    (hc : truthyCached st hashText text source_lang = none) :
    Translator.translate hashText api st text source_lang true =
      translateAttempts hashText api st text source_lang true 0 5 0 [] := by
  simp [Translator.translate, hc]

/-! ### Claims C4-C5 -/

/-- C4 counterexample: with caching enabled, on an empty cache, a first
`translate` call whose API attempt fails fatally followed by a second call
whose API attempt succeeds issues two external calls in total (not at most
one), and the two calls return different results. -/
theorem c4_counterexample :
    (Translator.translate (fun _ => "h") (fun _ => ApiOutcome.fatal)
        ⟨[], []⟩ "urbs" "la" true).apiCalls +
      (Translator.translate (fun _ => "h") (fun _ => ApiOutcome.success "city")
        (Translator.translate (fun _ => "h") (fun _ => ApiOutcome.fatal)
          ⟨[], []⟩ "urbs" "la" true).cache
        "urbs" "la" true).apiCalls = 2 ∧
    (Translator.translate (fun _ => "h") (fun _ => ApiOutcome.fatal)
        ⟨[], []⟩ "urbs" "la" true).output ≠
      (Translator.translate (fun _ => "h") (fun _ => ApiOutcome.success "city")
        (Translator.translate (fun _ => "h") (fun _ => ApiOutcome.fatal)
          ⟨[], []⟩ "urbs" "la" true).cache
        "urbs" "la" true).output := by
  constructor
  · rfl
  · decide

/-- C4 (amended): with caching enabled, whenever the first
`translate(text, source_lang)` call returns a non-empty result, the second
call for the same pair issues no external call and returns the identical
result verbatim from the cache, leaving the cache unchanged.  (When the
first call fails — empty output — nothing is cached and the second call
contacts the API again.) -/
theorem c4_second_call_served_from_cache (hashText : String → String)
    (api1 api2 : Nat → ApiOutcome) (st : TranslationCache) (text source_lang : String)
    (h : (Translator.translate hashText api1 st text source_lang true).output ≠ "") :
    (Translator.translate hashText api2
        (Translator.translate hashText api1 st text source_lang true).cache
        text source_lang true).apiCalls = 0 ∧
    (Translator.translate hashText api2
        (Translator.translate hashText api1 st text source_lang true).cache
        text source_lang true).output =
      (Translator.translate hashText api1 st text source_lang true).output ∧
    (Translator.translate hashText api2
        (Translator.translate hashText api1 st text source_lang true).cache
        text source_lang true).cache =
      (Translator.translate hashText api1 st text source_lang true).cache := by
  rcases hc : truthyCached st hashText text source_lang with _ | c
  · have hcache : (Translator.translate hashText api1 st text source_lang true).cache =
        st.put hashText text source_lang
          ((Translator.translate hashText api1 st text source_lang true).output) := by
      rw [translate_cacheMiss hashText api1 st text source_lang hc] at h ⊢
      exact translateAttempts_cache hashText api1 st text source_lang 5 0 0 [] h
    have hhit : truthyCached
        ((Translator.translate hashText api1 st text source_lang true).cache)
        hashText text source_lang =
        some ((Translator.translate hashText api1 st text source_lang true).output) := by
      rw [hcache]
      exact truthyCached_put st hashText text source_lang _ h
    have r2eq := translate_cacheHit hashText api2
      ((Translator.translate hashText api1 st text source_lang true).cache)
      text source_lang _ hhit
    rw [r2eq]
    exact ⟨rfl, rfl, rfl⟩
  · have r1eq := translate_cacheHit hashText api1 st text source_lang c hc
    have r2eq : Translator.translate hashText api2
        ((Translator.translate hashText api1 st text source_lang true).cache)
        text source_lang true = ⟨c, st, 0, []⟩ := by
      rw [r1eq]
      exact translate_cacheHit hashText api2 st text source_lang c hc
    rw [r2eq, r1eq]
    exact ⟨rfl, rfl, rfl⟩

/-- C4 witness: a successful first call (`"pax"`), then a second call whose
API would fail fatally — it is served from the cache instead. -/
theorem c4_witness :
    (Translator.translate (fun _ => "h") (fun _ => ApiOutcome.fatal)
        (Translator.translate (fun _ => "h") (fun _ => ApiOutcome.success "pax")
          ⟨[], []⟩ "bellum" "la" true).cache
        "bellum" "la" true).apiCalls = 0 ∧
    (Translator.translate (fun _ => "h") (fun _ => ApiOutcome.fatal)
        (Translator.translate (fun _ => "h") (fun _ => ApiOutcome.success "pax")
          ⟨[], []⟩ "bellum" "la" true).cache
        "bellum" "la" true).output =
      (Translator.translate (fun _ => "h") (fun _ => ApiOutcome.success "pax")
        ⟨[], []⟩ "bellum" "la" true).output ∧
    (Translator.translate (fun _ => "h") (fun _ => ApiOutcome.fatal)
        (Translator.translate (fun _ => "h") (fun _ => ApiOutcome.success "pax")
          ⟨[], []⟩ "bellum" "la" true).cache
        "bellum" "la" true).cache =
      (Translator.translate (fun _ => "h") (fun _ => ApiOutcome.success "pax")
        ⟨[], []⟩ "bellum" "la" true).cache :=
  c4_second_call_served_from_cache (fun _ => "h") (fun _ => ApiOutcome.success "pax")
    (fun _ => ApiOutcome.fatal) ⟨[], []⟩ "bellum" "la" (by decide)

/-- C5: `Translator.translate` returns either a translated text (an API
success or a cache hit) or the empty string; when every attempt hits a
retryable (429/503/overload) failure the call retries with exponentially
growing backoff waits 40, 70, 130, 250, 490 seconds up to the cap of 5
attempts and then yields the empty string with the cache untouched; a fatal
failure on the first attempt yields the empty string immediately after one
call.  No API failure escapes as an exception: the embedding is a total
function (the Python `except` clause catches every `Exception`). -/
theorem c5_translate_failure_contract (hashText : String → String)
    (api : Nat → ApiOutcome) (st : TranslationCache) (text source_lang : String) :
    ((Translator.translate hashText api st text source_lang true).output = "" ∨
      (∃ a, a < 5 ∧ api a = .success
        ((Translator.translate hashText api st text source_lang true).output)) ∨
      truthyCached st hashText text source_lang =
        some ((Translator.translate hashText api st text source_lang true).output)) ∧
    (truthyCached st hashText text source_lang = none →
      (∀ a, a < 5 → api a = .retryable) →
      Translator.translate hashText api st text source_lang true =
        ⟨"", st, 5, [40, 70, 130, 250, 490]⟩) ∧
    (truthyCached st hashText text source_lang = none → api 0 = .fatal →
      Translator.translate hashText api st text source_lang true = ⟨"", st, 1, []⟩) := by
  refine ⟨?_, ?_, ?_⟩
  · rcases hc : truthyCached st hashText text source_lang with _ | c
    · rw [translate_cacheMiss hashText api st text source_lang hc]
      rcases translateAttempts_output hashText api st text source_lang true 5 0 0 []
        with h | ⟨a, _, h2, h3⟩
      · exact Or.inl h
      · exact Or.inr (Or.inl ⟨a, by omega, h3⟩)
    · rw [translate_cacheHit hashText api st text source_lang c hc]
      exact Or.inr (Or.inr rfl)
  · intro hc hall
    rw [translate_cacheMiss hashText api st text source_lang hc]
    have e0 := translateAttempts_retryable hashText api st text source_lang true
      0 4 0 [] (hall 0 (by omega))
    have e1 := translateAttempts_retryable hashText api st text source_lang true
      1 3 1 [40] (hall 1 (by omega))
    have e2 := translateAttempts_retryable hashText api st text source_lang true
      2 2 2 [40, 70] (hall 2 (by omega))
    have e3 := translateAttempts_retryable hashText api st text source_lang true
      3 1 3 [40, 70, 130] (hall 3 (by omega))
    have e4 := translateAttempts_retryable hashText api st text source_lang true
      4 0 4 [40, 70, 130, 250] (hall 4 (by omega))
    simp only [show (4 : Nat) + 1 = 5 from rfl] at e0
    norm_num at e0 e1 e2 e3 e4
    rw [e0, e1, e2, e3, e4]
    rfl
  · intro hc hf
    rw [translate_cacheMiss hashText api st text source_lang hc]
    have := translateAttempts_fatal hashText api st text source_lang true 0 4 0 [] hf
    norm_num at this
    rw [this]

/-- C5 witness: an always-overloaded API on an empty cache — five calls,
backoffs 40, 70, 130, 250, 490, empty result, cache untouched. -/
theorem c5_witness :
    Translator.translate (fun _ => "k") (fun _ => ApiOutcome.retryable)
        ⟨[], []⟩ "x" "la" true =
      ⟨"", ⟨[], []⟩, 5, [40, 70, 130, 250, 490]⟩ :=
  (c5_translate_failure_contract (fun _ => "k") (fun _ => ApiOutcome.retryable)
    ⟨[], []⟩ "x" "la").2.1 rfl (fun _ _ => rfl)

/-! ## Chunk records and retrieval (`rag/models.py`, `rag/retrieve_v2.py`)

`ChunkMeta` carries the fields of `models.py` (chunk records are plain dicts
at runtime; `translated_text` is the extra key added by
`Translator.translate_chunks`).  `Retriever.retrieve` is embedded with the
embedding model and FAISS index abstracted into one function
`search : Nat → List (Int × Int)` mapping the requested candidate count `k`
to the `(score, identifier)` rows of `index.search(q_emb, k)` for the fixed
encoded question; scores are abstracted to `Int` (the code only copies and
compares them, so only their ordering matters).  FAISS identifiers can be
negative (`-1` padding when `k` exceeds the index size), hence `Int`. -/

/-- Embeds `ChunkMeta` (models.py 8-28) plus the `translated_text` dict key used by
`Translator.translate_chunks`. -/
structure ChunkMeta where
  chunk_id : String
  source : String
  text : String
  language : String := "en"
  language_name : String := "English"
  is_translation : Bool := false
  original_language : Option String := none
  original_text : Option String := none
  author : Option String := none
  title : Option String := none
  date_composed : Option String := none
  source_url : Option String := none
  source_repository : String := "unknown"
  translated_text : Option String := none
deriving DecidableEq

/-- Embeds `LANGUAGE_NAMES` (models.py 41-50). -/
def LANGUAGE_NAMES : List (String × String) :=
  [("en", "English"), ("la", "Latin"), ("ar", "Arabic"), ("el", "Greek"),
   ("fr", "French"), ("he", "Hebrew"), ("it", "Italian"), ("de", "German")]

/-- Embeds `get_language_name` (models.py 64-66). -/
def get_language_name (code : String) : String :=
  match LANGUAGE_NAMES.lookup code with
  | some n => n
  | none => code.toUpper

/-- The language filter of `Retriever.retrieve` (retrieve_v2.py 74-80):
`if languages:` is falsy for `None` and for `[]`; the chunk is dropped when
its `language` is not in the requested list AND its `original_language`
(possibly `None`, which is never in a list of strings) is not either. -/
def langFilteredOut (languages : Option (List String)) (chunk : ChunkMeta) : Bool :=
  match languages with
  | none => false
  | some langs =>
    if langs.isEmpty then false
    else
      !(langs.contains chunk.language) &&
        !(match chunk.original_language with
          | some o => langs.contains o
          | none => false)

/-- The `for score, idx in zip(scores[0], ids[0])` loop of
`Retriever.retrieve` (retrieve_v2.py 67-87).  An out-of-range identifier is
skipped before the chunk list is indexed; the `break` fires after appending
once `len(results) >= top_k`. -/
def retrieveLoop (chunks : List ChunkMeta) (languages : Option (List String))
    (top_k : Nat) : List (Int × Int) → List (Int × ChunkMeta) → List (Int × ChunkMeta)
  | [], results => results
  | (score, idx) :: rest, results =>
    if h : idx < 0 ∨ (chunks.length : Int) ≤ idx then
      retrieveLoop chunks languages top_k rest results
    else
      let chunk := chunks.get ⟨idx.toNat, by omega⟩
      if langFilteredOut languages chunk then
        retrieveLoop chunks languages top_k rest results
      else
        let results' := results ++ [(score, chunk)]
        if top_k ≤ results'.length then results'
        else retrieveLoop chunks languages top_k rest results'

/-- Embeds `Retriever.retrieve` (retrieve_v2.py 43-87): request `top_k * 3`
candidates when a truthy language filter is supplied, else `top_k`, then walk
them in order. -/
def retrieve (chunks : List ChunkMeta) (search : Nat → List (Int × Int))
    (top_k : Nat) (languages : Option (List String)) : List (Int × ChunkMeta) :=
  let search_k :=
    match languages with
    | some langs => if langs.isEmpty then top_k else top_k * 3
    | none => top_k
  retrieveLoop chunks languages top_k (search search_k) []

theorem retrieveLoop_oob (chunks : List ChunkMeta) (languages : Option (List String))
    (top_k : Nat) (score idx : Int) (rest : List (Int × Int))
    (acc : List (Int × ChunkMeta)) (h : idx < 0 ∨ (chunks.length : Int) ≤ idx) :
    retrieveLoop chunks languages top_k ((score, idx) :: rest) acc =
      retrieveLoop chunks languages top_k rest acc := by
  simp only [retrieveLoop]
  rw [dif_pos h]

theorem retrieveLoop_inb (chunks : List ChunkMeta) (languages : Option (List String))
    (top_k : Nat) (score idx : Int) (rest : List (Int × Int))
    (acc : List (Int × ChunkMeta)) (h : ¬ (idx < 0 ∨ (chunks.length : Int) ≤ idx)) :
    retrieveLoop chunks languages top_k ((score, idx) :: rest) acc =
      (if langFilteredOut languages (chunks.get ⟨idx.toNat, by omega⟩) then
        retrieveLoop chunks languages top_k rest acc
      else
        if top_k ≤ (acc ++ [(score, chunks.get ⟨idx.toNat, by omega⟩)]).length then
          acc ++ [(score, chunks.get ⟨idx.toNat, by omega⟩)]
        else
          retrieveLoop chunks languages top_k rest
            (acc ++ [(score, chunks.get ⟨idx.toNat, by omega⟩)])) := by
  simp only [retrieveLoop]
  rw [dif_neg h]

/-- The in-bounds test of retrieve_v2.py line 69, as a predicate on search
rows: the row survives iff `not (idx < 0 or idx >= len(chunks))`. -/
def inBounds (chunks : List ChunkMeta) (p : Int × Int) : Bool :=
  decide (0 ≤ p.2 ∧ p.2 < (chunks.length : Int))

/-- The loop never grows the result list beyond `top_k` once the accumulator
is below `top_k`. -/
theorem retrieveLoop_length (chunks : List ChunkMeta) (languages : Option (List String))
    (top_k : Nat) :
    ∀ pairs acc, acc.length < top_k →
      (retrieveLoop chunks languages top_k pairs acc).length ≤ top_k := by
  intro pairs
  induction pairs with
  | nil =>
    intro acc h
    simp only [retrieveLoop]
    omega
  | cons p rest ih =>
    obtain ⟨score, idx⟩ := p
    intro acc h
    by_cases hb : idx < 0 ∨ (chunks.length : Int) ≤ idx
    · rw [retrieveLoop_oob _ _ _ _ _ _ _ hb]
      exact ih acc h
    · rw [retrieveLoop_inb _ _ _ _ _ _ _ hb]
      by_cases hfo : langFilteredOut languages (chunks.get ⟨idx.toNat, by omega⟩) = true
      · rw [if_pos hfo]
        exact ih acc h
      · rw [if_neg hfo]
        by_cases hk : top_k ≤ (acc ++ [(score, chunks.get ⟨idx.toNat, by omega⟩)]).length
        · rw [if_pos hk]
          simp only [List.length_append, List.length_cons, List.length_nil]
          omega
        · rw [if_neg hk]
          apply ih
          simp only [List.length_append, List.length_cons, List.length_nil] at hk ⊢
          omega

/-- The returned scores are a subsequence of `accumulator scores ++ candidate
scores`: any `Pairwise` relation on the latter survives into the result. -/
theorem retrieveLoop_pairwise (chunks : List ChunkMeta) (languages : Option (List String))
    (top_k : Nat) (R : Int → Int → Prop) :
    ∀ pairs acc,
      (acc.map Prod.fst ++ pairs.map Prod.fst).Pairwise R →
      ((retrieveLoop chunks languages top_k pairs acc).map Prod.fst).Pairwise R := by
  intro pairs
  induction pairs with
  | nil =>
    intro acc h
    simp only [retrieveLoop]
    simpa using h
  | cons p rest ih =>
    obtain ⟨score, idx⟩ := p
    intro acc h
    simp only [List.map_cons] at h
    have hskip : (acc.map Prod.fst ++ rest.map Prod.fst).Pairwise R := by
      refine List.Pairwise.sublist ?_ h
      exact List.Sublist.append_left (List.sublist_cons_self _ _) _
    by_cases hb : idx < 0 ∨ (chunks.length : Int) ≤ idx
    · rw [retrieveLoop_oob _ _ _ _ _ _ _ hb]
      exact ih acc hskip
    · rw [retrieveLoop_inb _ _ _ _ _ _ _ hb]
      by_cases hfo : langFilteredOut languages (chunks.get ⟨idx.toNat, by omega⟩) = true
      · rw [if_pos hfo]
        exact ih acc hskip
      · rw [if_neg hfo]
        by_cases hk : top_k ≤ (acc ++ [(score, chunks.get ⟨idx.toNat, by omega⟩)]).length
        · rw [if_pos hk]
          rw [List.map_append]
          simp only [List.map_cons, List.map_nil]
          refine List.Pairwise.sublist ?_ h
          exact List.Sublist.append_left (List.Sublist.cons₂ _ (List.nil_sublist _)) _
        · rw [if_neg hk]
          apply ih
          rw [List.map_append]
          simp only [List.map_cons, List.map_nil, List.append_assoc, List.singleton_append]
          exact h

/-- Every chunk the loop returns is an element of the loaded chunk list —
results are never padded or fabricated. -/
theorem retrieveLoop_mem (chunks : List ChunkMeta) (languages : Option (List String))
    (top_k : Nat) :
    ∀ pairs acc, (∀ q ∈ acc, q.2 ∈ chunks) →
      ∀ q ∈ retrieveLoop chunks languages top_k pairs acc, q.2 ∈ chunks := by
  intro pairs
  induction pairs with
  | nil =>
    intro acc h
    simpa only [retrieveLoop] using h
  | cons p rest ih =>
    obtain ⟨score, idx⟩ := p
    intro acc h
    by_cases hb : idx < 0 ∨ (chunks.length : Int) ≤ idx
    · rw [retrieveLoop_oob _ _ _ _ _ _ _ hb]
      exact ih acc h
    · rw [retrieveLoop_inb _ _ _ _ _ _ _ hb]
      have hacc' : ∀ q ∈ acc ++ [(score, chunks.get ⟨idx.toNat, by omega⟩)], q.2 ∈ chunks := by
        intro q hq
        rcases List.mem_append.mp hq with hq | hq
        · exact h q hq
        · rcases List.mem_singleton.mp hq with rfl
          exact List.get_mem chunks idx.toNat _
      by_cases hfo : langFilteredOut languages (chunks.get ⟨idx.toNat, by omega⟩) = true
      · rw [if_pos hfo]
        exact ih acc h
      · rw [if_neg hfo]
        by_cases hk : top_k ≤ (acc ++ [(score, chunks.get ⟨idx.toNat, by omega⟩)]).length
        · rw [if_pos hk]
          exact hacc'
        · rw [if_neg hk]
          exact ih _ hacc'

/-- Dropping the out-of-range rows first changes nothing: they are skipped
without being dereferenced. -/
theorem retrieveLoop_skips_oob (chunks : List ChunkMeta) (languages : Option (List String))
    (top_k : Nat) :
    ∀ pairs acc,
      retrieveLoop chunks languages top_k pairs acc =
        retrieveLoop chunks languages top_k (pairs.filter (inBounds chunks)) acc := by
  intro pairs
  induction pairs with
  | nil => intro acc; rfl
  | cons p rest ih =>
    obtain ⟨score, idx⟩ := p
    intro acc
    by_cases hb : idx < 0 ∨ (chunks.length : Int) ≤ idx
    · have hf : inBounds chunks (score, idx) = false := by
        simp only [inBounds, decide_eq_false_iff_not]
        omega
      rw [retrieveLoop_oob _ _ _ _ _ _ _ hb, List.filter_cons, hf]
      simp only [Bool.false_eq_true, if_false]
      exact ih acc
    · have hf : inBounds chunks (score, idx) = true := by
        simp only [inBounds, decide_eq_true_eq]
        omega
      rw [List.filter_cons, hf]
      simp only [if_true]
      rw [retrieveLoop_inb _ _ _ _ _ _ _ hb, retrieveLoop_inb _ _ _ _ _ _ _ hb]
      by_cases hfo : langFilteredOut languages (chunks.get ⟨idx.toNat, by omega⟩) = true
      · rw [if_pos hfo, if_pos hfo]
        exact ih acc
      · rw [if_neg hfo, if_neg hfo]
        by_cases hk : top_k ≤ (acc ++ [(score, chunks.get ⟨idx.toNat, by omega⟩)]).length
        · rw [if_pos hk, if_pos hk]
        · rw [if_neg hk, if_neg hk]
          exact ih _

theorem contains_iff_mem_str (l : List String) (a : String) :
    l.contains a = true ↔ a ∈ l := by
  simp [List.contains]

/-- A chunk that survives a truthy language filter has its `language` or its
`original_language` in the requested list. -/
theorem langFilteredOut_false (ls : List String) (chunk : ChunkMeta) (hne : ls ≠ [])
    (hfo : ¬ langFilteredOut (some ls) chunk = true) :
    chunk.language ∈ ls ∨ ∃ o, chunk.original_language = some o ∧ o ∈ ls := by
  have hempty : ls.isEmpty = false := by
    cases ls with
    | nil => exact absurd rfl hne
    | cons a l => rfl
  simp only [langFilteredOut, hempty, Bool.false_eq_true, if_false] at hfo
  by_cases hcl : ls.contains chunk.language = true
  · exact Or.inl ((contains_iff_mem_str ls chunk.language).mp hcl)
  · right
    match horig : chunk.original_language with
    | none =>
      exfalso
      apply hfo
      rw [horig]
      simp [Bool.not_eq_true] at hcl
      simp [hcl]
    | some o =>
      by_cases ho : ls.contains o = true
      · exact ⟨o, rfl, (contains_iff_mem_str ls o).mp ho⟩
      · exfalso
        apply hfo
        rw [horig]
        simp [Bool.not_eq_true] at hcl ho
        simp [hcl, ho]

/-- Every chunk the loop keeps under a truthy language filter satisfies the
filter (the accumulator being assumed to satisfy it already). -/
theorem retrieveLoop_lang (chunks : List ChunkMeta) (ls : List String) (top_k : Nat)
    (hne : ls ≠ []) :
    ∀ pairs acc,
      (∀ q ∈ acc, q.2.language ∈ ls ∨ ∃ o, q.2.original_language = some o ∧ o ∈ ls) →
      ∀ q ∈ retrieveLoop chunks (some ls) top_k pairs acc,
        q.2.language ∈ ls ∨ ∃ o, q.2.original_language = some o ∧ o ∈ ls := by
  intro pairs
  induction pairs with
  | nil =>
    intro acc h
    simpa only [retrieveLoop] using h
  | cons p rest ih =>
    obtain ⟨score, idx⟩ := p
    intro acc h
    by_cases hb : idx < 0 ∨ (chunks.length : Int) ≤ idx
    · rw [retrieveLoop_oob _ _ _ _ _ _ _ hb]
      exact ih acc h
    · rw [retrieveLoop_inb _ _ _ _ _ _ _ hb]
      by_cases hfo : langFilteredOut (some ls) (chunks.get ⟨idx.toNat, by omega⟩) = true
      · rw [if_pos hfo]
        exact ih acc h
      · rw [if_neg hfo]
        have hacc' : ∀ q ∈ acc ++ [(score, chunks.get ⟨idx.toNat, by omega⟩)],
            q.2.language ∈ ls ∨ ∃ o, q.2.original_language = some o ∧ o ∈ ls := by
          intro q hq
          rcases List.mem_append.mp hq with hq | hq
          · exact h q hq
          · rcases List.mem_singleton.mp hq with rfl
            exact langFilteredOut_false ls _ hne hfo
        by_cases hk : top_k ≤ (acc ++ [(score, chunks.get ⟨idx.toNat, by omega⟩)]).length
        · rw [if_pos hk]
          exact hacc'
        · rw [if_neg hk]
          exact ih _ hacc'

/-! ### Claims C6, C7, C10 -/

/-- C6: given that the index search returns its candidate rows sorted
descending by score, `Retriever.retrieve` returns its `(score, chunk)` pairs
sorted by non-increasing score, for every corpus, filter and `top_k`. -/
theorem c6_retrieve_sorted (chunks : List ChunkMeta) (search : Nat → List (Int × Int))
    (top_k : Nat) (languages : Option (List String))
    (hsorted : ∀ k, ((search k).map Prod.fst).Pairwise (fun a b => b ≤ a)) :
    ((retrieve chunks search top_k languages).map Prod.fst).Pairwise
      (fun a b => b ≤ a) := by
  simp only [retrieve]
  apply retrieveLoop_pairwise
  simpa using hsorted _

/-- C6 witness: a two-chunk corpus with descending search scores 5, 3. -/
theorem c6_witness :
    ((retrieve
        [{ chunk_id := "a", source := "s", text := "t" },
         { chunk_id := "b", source := "s", text := "u" }]
        (fun _ => [(5, 0), (3, 1)]) 2 none).map Prod.fst).Pairwise
      (fun a b => b ≤ a) :=
  c6_retrieve_sorted _ _ 2 none (fun _ => by decide)

/-- C7: with a non-empty language filter, `Retriever.retrieve` returns at
most `top_k` pairs (given that the index search returns at most the requested
number of rows), every returned chunk's `language` or `original_language` is
in the requested set, and every returned chunk comes from the loaded chunk
list — when fewer than `top_k` candidates pass, the shorter list is returned
with no padding (and no error: the embedding is total). -/
theorem c7_retrieve_language_filter (chunks : List ChunkMeta)
    (search : Nat → List (Int × Int)) (top_k : Nat) (ls : List String)
    (hne : ls ≠ []) (hlen : ∀ k, (search k).length ≤ k) :
    (retrieve chunks search top_k (some ls)).length ≤ top_k ∧
    ∀ q ∈ retrieve chunks search top_k (some ls),
      (q.2.language ∈ ls ∨ ∃ o, q.2.original_language = some o ∧ o ∈ ls) ∧
      q.2 ∈ chunks := by
  have hempty : ls.isEmpty = false := by
    cases ls with
    | nil => exact absurd rfl hne
    | cons a l => rfl
  constructor
  · simp only [retrieve, hempty, Bool.false_eq_true, if_false]
    by_cases hk : top_k = 0
    · subst hk
      have h3 := hlen 0
      have h0 : search 0 = [] := List.length_eq_zero.mp (by omega)
      simp [h0, retrieveLoop]
    · apply retrieveLoop_length
      simp only [List.length_nil]
      omega
  · intro q hq
    simp only [retrieve, hempty, Bool.false_eq_true, if_false] at hq
    constructor
    · exact retrieveLoop_lang chunks ls top_k hne _ [] (by simp) q hq
    · exact retrieveLoop_mem chunks (some ls) top_k _ [] (by simp) q hq

/-- C7 witness: the spec's scenario — three chunks with languages
`["en", "la", "en"]`, filter `["la"]`, `top_k = 2` — at most 2 results,
all of them Latin, all from the corpus (in fact exactly the one Latin
chunk survives). -/
theorem c7_witness :
    (retrieve
        [{ chunk_id := "a", source := "s", text := "t", language := "en" },
         { chunk_id := "b", source := "s", text := "u", language := "la" },
         { chunk_id := "c", source := "s", text := "v", language := "en" }]
        (fun k => [((9 : Int), (0 : Int)), (8, 1), (7, 2)].take k) 2 (some ["la"])).length ≤ 2 ∧
    ∀ q ∈ retrieve
        [{ chunk_id := "a", source := "s", text := "t", language := "en" },
         { chunk_id := "b", source := "s", text := "u", language := "la" },
         { chunk_id := "c", source := "s", text := "v", language := "en" }]
        (fun k => [((9 : Int), (0 : Int)), (8, 1), (7, 2)].take k) 2 (some ["la"]),
      (q.2.language ∈ ["la"] ∨ ∃ o, q.2.original_language = some o ∧ o ∈ ["la"]) ∧
      q.2 ∈ [{ chunk_id := "a", source := "s", text := "t", language := "en" },
         { chunk_id := "b", source := "s", text := "u", language := "la" },
         { chunk_id := "c", source := "s", text := "v", language := "en" }] :=
  c7_retrieve_language_filter _ _ 2 ["la"] (by decide)
    (fun k => by rw [List.length_take]; exact Nat.min_le_left _ _)

/-- C10: `Retriever.retrieve` never dereferences an out-of-range identifier,
whatever the relation between index size and chunk-list length: the loop
computes the same results as if the out-of-range rows had been deleted from
the search output, and every chunk it returns is an element of the loaded
chunk list. -/
theorem c10_out_of_range_ids_skipped (chunks : List ChunkMeta)
    (languages : Option (List String)) (top_k : Nat) :
    (∀ pairs acc, retrieveLoop chunks languages top_k pairs acc =
      retrieveLoop chunks languages top_k (pairs.filter (inBounds chunks)) acc) ∧
    ∀ pairs, ∀ q ∈ retrieveLoop chunks languages top_k pairs [], q.2 ∈ chunks := by
  constructor
  · exact retrieveLoop_skips_oob chunks languages top_k
  · intro pairs
    exact retrieveLoop_mem chunks languages top_k pairs [] (by simp)

/-- C10 witness: a one-chunk corpus with search identifiers 7, -1 and 0 —
the loop equals its run on the rows filtered to the in-range identifier 0,
and the returned chunk is the corpus element. -/
theorem c10_witness :
    retrieveLoop [{ chunk_id := "a", source := "s", text := "t" }] none 4
        [(5, 7), (4, -1), (3, 0)] [] =
      retrieveLoop [{ chunk_id := "a", source := "s", text := "t" }] none 4
        ([(5, 7), (4, -1), (3, 0)].filter
          (inBounds [{ chunk_id := "a", source := "s", text := "t" }])) [] ∧
    ((3 : Int), ({ chunk_id := "a", source := "s", text := "t" } : ChunkMeta)).2 ∈
      [{ chunk_id := "a", source := "s", text := "t" }] :=
  ⟨(c10_out_of_range_ids_skipped _ none 4).1 [(5, 7), (4, -1), (3, 0)] [],
   (c10_out_of_range_ids_skipped _ none 4).2 [(5, 7), (4, -1), (3, 0)]
     ((3 : Int), { chunk_id := "a", source := "s", text := "t" }) (by decide)⟩

/-! ## Chunk identifiers and chunk construction (`load_file`, injest_v2.py 103-149)

`load_file` builds `{prefix}_chunk_{i:03d}` where the sanitized stem comes
from `re.sub(r"[^\w\-]", "_", filepath.stem)` (ASCII fragment of `\w`:
letters, digits and underscore) and `{i:03d}` is the decimal representation
of `i` left-padded with zeros to width 3. -/

/-- ASCII `\w`: letter, digit or underscore. -/
def isWordChar (c : Char) : Bool :=
  c.isAlphanum || c = '_'

/-- Embeds `re.sub(r"[^\w\-]", "_", stem)`: replace every character that is neither
a word character nor a hyphen by an underscore. -/
def sanitizeStem (s : String) : String :=
  ⟨s.data.map (fun c => if isWordChar c || c = '-' then c else '_')⟩

/-- Decimal digits of `n`, most significant first, with enough fuel that the
recursion on `n / 10` always completes (`n + 1` calls suffice). -/
def decDigitsGo : Nat → Nat → List Char → List Char
  | 0, _, acc => acc
  | fuel + 1, n, acc =>
    if n < 10 then Nat.digitChar n :: acc
    else decDigitsGo fuel (n / 10) (Nat.digitChar (n % 10) :: acc)

def decDigits (n : Nat) : List Char :=
  decDigitsGo (n + 1) n []

/-- Python `f"{i:03d}"`: the decimal representation of `i`, left-padded with
zeros to width 3 (wider numbers are printed in full). -/
def fmt03 (i : Nat) : String :=
  ⟨List.replicate (3 - (decDigits i).length) '0' ++ decDigits i⟩

/-- The id `f"{prefix}_chunk_{i:03d}"` with the sanitized stem (injest_v2.py 128,
134). -/
def chunkId (stem : String) (i : Nat) : String :=
  sanitizeStem stem ++ "_chunk_" ++ fmt03 i

theorem decDigitsGo_small (fuel n : Nat) (acc : List Char) (h : n < 10)
    (hf : 1 ≤ fuel) : decDigitsGo fuel n acc = Nat.digitChar n :: acc := by
  cases fuel with
  | zero => omega
  | succ m => simp [decDigitsGo, h]

theorem decDigitsGo_step (fuel n : Nat) (acc : List Char) (h : ¬ n < 10)
    (hf : 1 ≤ fuel) :
    decDigitsGo fuel n acc =
      decDigitsGo (fuel - 1) (n / 10) (Nat.digitChar (n % 10) :: acc) := by
  cases fuel with
  | zero => omega
  | succ m => simp [decDigitsGo, h]

theorem decDigits_eq_1 (n : Nat) (h : n ≤ 9) :
    decDigits n = [Nat.digitChar n] :=
  decDigitsGo_small (n + 1) n [] (by omega) (by omega)

theorem decDigits_eq_2 (n : Nat) (h1 : 10 ≤ n) (h2 : n ≤ 99) :
    decDigits n = [Nat.digitChar (n / 10), Nat.digitChar (n % 10)] := by
  unfold decDigits
  rw [decDigitsGo_step (n + 1) n [] (by omega) (by omega)]
  simp only [Nat.add_sub_cancel]
  rw [decDigitsGo_small n (n / 10) _ (by omega) (by omega)]

theorem decDigits_eq_3 (n : Nat) (h1 : 100 ≤ n) (h2 : n ≤ 999) :
    decDigits n = [Nat.digitChar (n / 100), Nat.digitChar (n / 10 % 10),
      Nat.digitChar (n % 10)] := by
  unfold decDigits
  rw [decDigitsGo_step (n + 1) n [] (by omega) (by omega)]
  simp only [Nat.add_sub_cancel]
  rw [decDigitsGo_step n (n / 10) _ (by omega) (by omega)]
  rw [decDigitsGo_small (n - 1) (n / 10 / 10) _ (by omega) (by omega)]
  rw [Nat.div_div_eq_div_mul]

theorem fmt03_eq (i : Nat) (h : i ≤ 999) :
    (fmt03 i).data = [Nat.digitChar (i / 100), Nat.digitChar (i / 10 % 10),
      Nat.digitChar (i % 10)] := by
  show List.replicate (3 - (decDigits i).length) '0' ++ decDigits i = _
  by_cases h9 : i ≤ 9
  · rw [decDigits_eq_1 i h9]
    have e100 : i / 100 = 0 := by omega
    have e10 : i / 10 % 10 = 0 := by omega
    have em : i % 10 = i := by omega
    rw [e100, e10, em]
    rfl
  · by_cases h99 : i ≤ 99
    · rw [decDigits_eq_2 i (by omega) h99]
      have e100 : i / 100 = 0 := by omega
      have e10 : i / 10 % 10 = i / 10 := by omega
      rw [e100, e10]
      rfl
    · rw [decDigits_eq_3 i (by omega) h]
      rfl

/-- The decimal digit characters are ordered like the digits. -/
theorem digitChar_lt_iff : ∀ a < 10, ∀ b < 10,
    (Nat.digitChar a < Nat.digitChar b ↔ a < b) := by decide

theorem list_lt_append_left (pre : List Char) {l1 l2 : List Char}
    (h : l1 < l2) : pre ++ l1 < pre ++ l2 := by
  induction pre with
  | nil => simpa using h
  | cons c cs ih => exact List.Lex.cons ih

theorem fmt03_lt_data (i j : Nat) (hij : i < j) (hj : j ≤ 999) :
    (fmt03 i).data < (fmt03 j).data := by
  rw [fmt03_eq i (by omega), fmt03_eq j hj]
  by_cases h2 : i / 100 < j / 100
  · exact List.Lex.rel ((digitChar_lt_iff _ (by omega) _ (by omega)).mpr h2)
  · have e2 : i / 100 = j / 100 := by omega
    rw [e2]
    refine List.Lex.cons ?_
    by_cases h1 : i / 10 % 10 < j / 10 % 10
    · exact List.Lex.rel ((digitChar_lt_iff _ (by omega) _ (by omega)).mpr h1)
    · have e1 : i / 10 % 10 = j / 10 % 10 := by omega
      rw [e1]
      refine List.Lex.cons ?_
      have h0 : i % 10 < j % 10 := by omega
      exact List.Lex.rel ((digitChar_lt_iff _ (by omega) _ (by omega)).mpr h0)

theorem string_toList_append (s t : String) :
    (s ++ t).toList = s.toList ++ t.toList := by
  simp [String.toList]

/-! ### Claim C9 -/

/-- C9 counterexample: the sanitization `re.sub(r"[^\w\-]", "_", stem)` is
not injective — the distinct stems `"a!"` and `"a?"` yield identical
chunk_ids, so chunk_ids are not unique across a corpus; and zero-padding to
width 3 breaks lexicographic ordering at sequence number 1000:
`"..._chunk_1000" < "..._chunk_999"` although `999 < 1000`. -/
theorem c9_counterexample :
    chunkId "a!" 0 = chunkId "a?" 0 ∧
    999 < 1000 ∧ chunkId "doc" 1000 < chunkId "doc" 999 := by
  refine ⟨by decide, by omega, ?_⟩
  rw [String.lt_iff_toList_lt]
  decide

/-- C9 (amended): within one document, for sequence numbers up to 999 (the
zero-padding width), chunk_ids are strictly increasing lexicographically in
the numeric sequence order, hence pairwise distinct.  Uniqueness across the
corpus and lexical ordering beyond 999 do not hold in general. -/
theorem c9_chunk_id_ordering (stem : String) (i j : Nat) (hij : i < j)
    (hj : j ≤ 999) :
    chunkId stem i < chunkId stem j ∧ chunkId stem i ≠ chunkId stem j := by
  have hlt : chunkId stem i < chunkId stem j := by
    rw [String.lt_iff_toList_lt]
    unfold chunkId
    rw [string_toList_append, string_toList_append]
    apply list_lt_append_left
    exact fmt03_lt_data i j hij hj
  exact ⟨hlt, ne_of_lt hlt⟩

/-- C9 witness: within a document, chunk 5 sorts before chunk 12. -/
theorem c9_witness :
    chunkId "doc" 5 < chunkId "doc" 12 ∧ chunkId "doc" 5 ≠ chunkId "doc" 12 :=
  c9_chunk_id_ordering "doc" 5 12 (by omega) (by omega)

/-! ## Chunk record construction and the translation invariant (C8)

`load_file` (injest_v2.py 131-147) builds each chunk record with
`is_translation=False`, `original_text=None`;
`MultilingualIngestor.translate_chunks` (injest_v2.py 193-208) mutates a
chunk only when the translator returned a non-empty string, setting all four
fields together; `Translator.translate_chunks` (translation.py 224-232) adds
a `translated_text` key, sets `original_language` and keeps
`is_translation=False` — in the repository it is only ever applied to
freshly loaded (untranslated) chunks. -/

/-- One chunk record as built by `load_file` for window `i` of a document. -/
def mkLoadedChunk (stem sourcePath chunkText lang : String) (i : Nat)
    (author title source_url : Option String) (repository : String) : ChunkMeta :=
  { chunk_id := chunkId stem i
    source := sourcePath
    text := chunkText
    language := lang
    language_name := get_language_name lang
    is_translation := false
    original_language := none
    original_text := none
    author := author
    title := title
    date_composed := none
    source_url := source_url
    source_repository := repository
    translated_text := none }

/-- The §3 invariant: exactly one of the two states holds. -/
def chunkInvariant (c : ChunkMeta) : Prop :=
  ((c.is_translation = false ∧ c.original_text = none) ∧
    ¬ (c.is_translation = true ∧ c.original_text ≠ none ∧
        c.original_language ≠ none)) ∨
  ((c.is_translation = true ∧ c.original_text ≠ none ∧
      c.original_language ≠ none) ∧
    ¬ (c.is_translation = false ∧ c.original_text = none))

/-- The per-chunk update of `MultilingualIngestor.translate_chunks`
(injest_v2.py 199-208): only a truthy translation flips the chunk to its
bilingual form; a failed translation (empty string) leaves it untouched. -/
def ingestTranslateChunk (c : ChunkMeta) (translated : String) : ChunkMeta :=
  if translated ≠ "" then
    { c with
      original_text := some c.text
      text := translated
      is_translation := true
      original_language := some c.language }
  else c

/-- The per-chunk update of `Translator.translate_chunks`
(translation.py 224-232): adds `translated_text`, sets `original_language`,
and (re)sets `is_translation` to `False`. -/
def translatorTranslateChunk (c : ChunkMeta) (translation source_lang : String) :
    ChunkMeta :=
  { c with
    translated_text := some translation
    original_language := some source_lang
    is_translation := false }

/-! ### Claim C8 -/

/-- C8: every chunk record built by `load_file` satisfies the invariant
(`is_translation=false` with `original_text=null`); the ingest-side
translation step preserves the invariant for every translator output; and
the `Translator.translate_chunks` record update keeps the invariant for the
chunks it is actually applied to (freshly loaded ones, which satisfy
`is_translation=false` and `original_text=null`). -/
theorem c8_translation_invariant :
    (∀ stem sourcePath chunkText lang i author title source_url repository,
      chunkInvariant (mkLoadedChunk stem sourcePath chunkText lang i
        author title source_url repository)) ∧
    (∀ c translated, chunkInvariant c →
      chunkInvariant (ingestTranslateChunk c translated)) ∧
    (∀ c translation source_lang, c.is_translation = false →
      c.original_text = none →
      chunkInvariant (translatorTranslateChunk c translation source_lang)) := by
  refine ⟨?_, ?_, ?_⟩
  · intro stem sourcePath chunkText lang i author title source_url repository
    left
    constructor
    · exact ⟨rfl, rfl⟩
    · rintro ⟨h1, -, -⟩
      simp [mkLoadedChunk] at h1
  · intro c translated hc
    unfold ingestTranslateChunk
    by_cases ht : translated ≠ ""
    · rw [if_pos ht]
      right
      constructor
      · exact ⟨rfl, by simp, by simp⟩
      · rintro ⟨h1, -⟩
        simp at h1
    · rw [if_neg ht]
      exact hc
  · intro c translation source_lang h1 h2
    left
    constructor
    · exact ⟨rfl, h2⟩
    · rintro ⟨hb, -, -⟩
      simp [translatorTranslateChunk] at hb

/-- C8 witness: a freshly loaded chunk, its successful ingest-side
translation, and the translator-side record update on a fresh chunk. -/
theorem c8_witness :
    chunkInvariant (mkLoadedChunk "doc" "p.txt" "Deus vult" "la" 0
      none none none "archive") ∧
    chunkInvariant (ingestTranslateChunk
      (mkLoadedChunk "doc" "p.txt" "Deus vult" "la" 0 none none none "archive")
      "God wills it") ∧
    chunkInvariant (translatorTranslateChunk
      (mkLoadedChunk "doc" "p.txt" "Deus vult" "la" 0 none none none "archive")
      "God wills it" "la") :=
  ⟨c8_translation_invariant.1 "doc" "p.txt" "Deus vult" "la" 0 none none none "archive",
   c8_translation_invariant.2.1 _ "God wills it"
     (c8_translation_invariant.1 "doc" "p.txt" "Deus vult" "la" 0 none none none "archive"),
   c8_translation_invariant.2.2 _ "God wills it" "la" rfl rfl⟩
